import Mathlib

/-!
Shallow embedding of the UnrealIRCd event scheduler (`src/api-event.c`) and the
in-memory history backend (`src/modules/history_backend_mem.c` part of the same
source slice), together with theorems settling the specification claims.

Conventions of the embedding:
* C pointers that may be NULL become `Option`; a callback / data pointer is an
  opaque `Nat` token.
* `struct timeval` times and millisecond intervals become a single `Int`
  millisecond count; C `int` / `long` counters become `Int` (no claim exercises
  machine-width overflow).
* The global singly linked `events` list becomes `List Event`; node identity
  (pointer equality) becomes the `id : Nat` field.
* Calling a task's callback is recorded by appending the task's `id` to a
  trace; the callbacks themselves are external.
-/

namespace Sched

/-- A scheduled task: `struct Event` from api-event.c.  `id` models the node's
pointer identity; `cb` and `dat` are opaque tokens for the `event` function
pointer and `data` pointer (`cb = none` models a NULL function pointer). -/
structure Event where
  id : Nat
  name : Option String
  cb : Option Nat
  dat : Nat
  every_msec : Int
  count : Int
  last_run : Int
  deriving Repr, DecidableEq

/-- The owner module: only its `errorcode` channel matters to the claims; the
`MOBJ_EVENT` back-reference list is bookkeeping no claim observes. -/
structure Module where
  errorcode : Int
  deriving Repr, DecidableEq

/-- External constant `MODERR_NOERROR` (value itself immaterial, only
distinctness matters). -/
def MODERR_NOERROR : Int := 0

/-- External constant `MODERR_INVALID`. -/
def MODERR_INVALID : Int := 3

/-- Result of `EventAdd`: returned pointer, new task list, updated module, and
whether the low-interval diagnostic (`ircd_log` of the `[BUG]` warning) was
emitted. -/
structure AddResult where
  ret : Option Event
  events : List Event
  module : Option Module
  warned : Bool
  deriving Repr, DecidableEq

/-- `EventAdd` from api-event.c: validates the arguments, clamps `every_msec`
below 100 up to 100 (with a diagnostic), initialises `last_run` to now and
prepends the new task (`AddListItem`) to the list. -/
def EventAdd (module : Option Module) (name : Option String) (event : Option Nat)
    (data : Nat) (every_msec : Int) (count : Int) (now : Int) (newid : Nat)
    (events : List Event) : AddResult :=
  if name = none ∨ every_msec < 0 ∨ count < 0 ∨ event = none then
    { ret := none, events := events,
      module := module.map (fun m => { m with errorcode := MODERR_INVALID }),
      warned := false }
  else
    let em := if every_msec < 100 then 100 else every_msec
    let e : Event := { id := newid, name := name, cb := event, dat := data,
                       every_msec := em, count := count, last_run := now }
    { ret := some e, events := e :: events,
      module := module.map (fun m => { m with errorcode := MODERR_NOERROR }),
      warned := decide (every_msec < 100) }

/-- `EventMarkDel`: lazy removal request, sets `count = -1`. -/
def EventMarkDel (e : Event) : Event :=
  { e with count := -1 }

/-- `EventDel` from api-event.c: removes the first node with the given identity
from the list and returns the updated list together with the continuation point
`q = p->next` (the suffix that followed the removed node), or `none` when the
node is not in the list. -/
def EventDel (i : Nat) : List Event → List Event × Option (List Event)
  | [] => ([], none)
  | e :: rest =>
    if e.id = i then (rest, some rest)
    else
      let r := EventDel i rest
      (e :: r.1, r.2)

/-- `EventFind`: first task in list order whose stored name compares equal
(`strcmp`) to the query. -/
def EventFind (nm : String) : List Event → Option Event
  | [] => none
  | e :: rest => if e.name = some nm then some e else EventFind nm rest

/-- Modelled from the spec: `minimum_msec_since_last_run` is external to this
slice; per the spec it is the predicate "at least `every_msec` milliseconds
have elapsed since `last_run`" supplied by the time source. -/
def minimum_msec_since_last_run (now last every : Int) : Bool :=
  decide (every ≤ now - last)

/-- The firing condition of `DoEvents`:
`every_msec == 0 || minimum_msec_since_last_run(...)` (short-circuit). -/
def fireCond (now : Int) (e : Event) : Bool :=
  (e.every_msec == 0) || minimum_msec_since_last_run now e.last_run e.every_msec

/-- Modelled from the spec: on a successful elapsed-time check
`minimum_msec_since_last_run` updates `last_run` to now; the short-circuit
means it is not consulted (and `last_run` not touched) when `every_msec == 0`. -/
def fireUpdate (now : Int) (e : Event) : Event :=
  if e.every_msec = 0 then e else { e with last_run := now }

/-- `DoEvents` from api-event.c (one `Tick`): walks the list; a task with
`count == -1` is deleted via `EventDel` and traversal resumes at the returned
continuation; a firing task has its callback invoked (recorded in the trace)
and, when `count > 0`, its count decremented, being deleted the same way when
the count reaches 0.  Returns the surviving list and the trace of fired ids. -/
def doEvents (now : Int) : List Event → List Event × List Nat
  | [] => ([], [])
  | e :: rest =>
    if e.count = -1 then
      doEvents now rest
    else if fireCond now e then
      let e1 := fireUpdate now e
      let r := doEvents now rest
      if 0 < e1.count then
        if e1.count - 1 = 0 then (r.1, e.id :: r.2)
        else ({ e1 with count := e1.count - 1 } :: r.1, e.id :: r.2)
      else (e1 :: r.1, e.id :: r.2)
    else
      let r := doEvents now rest
      (e :: r.1, r.2)

/-- Iterated `Tick`: `k` successive `DoEvents` passes at the same clock value,
concatenating the firing traces. -/
def iterTicks (now : Int) : Nat → List Event → List Event × List Nat
  | 0, l => (l, [])
  | k + 1, l =>
    let r := doEvents now l
    let r2 := iterTicks now k r.1
    (r2.1, r.2 ++ r2.2)

theorem doEvents_nil (now : Int) : doEvents now [] = ([], []) := rfl

/-- Every id in the output task list of one tick was an id of the input list. -/
theorem doEvents_ids_subset (now : Int) (l : List Event) :
    ∀ x ∈ (doEvents now l).1, x.id ∈ l.map Event.id := by
  induction l with
  | nil => simp [doEvents]
  | cons e rest ih =>
    intro x hx
    simp only [doEvents] at hx
    by_cases h1 : e.count = -1
    · simp only [if_pos h1] at hx
      exact List.mem_cons_of_mem _ (ih x hx)
    · simp only [if_neg h1] at hx
      by_cases h2 : fireCond now e
      · simp only [if_pos h2] at hx
        by_cases h3 : 0 < (fireUpdate now e).count
        · by_cases h4 : (fireUpdate now e).count - 1 = 0
          · simp only [if_pos h3, if_pos h4] at hx
            exact List.mem_cons_of_mem _ (ih x hx)
          · simp only [if_pos h3, if_neg h4] at hx
            rcases List.mem_cons.mp hx with h | h
            · subst h
              simp [fireUpdate]
              by_cases h5 : e.every_msec = 0 <;> simp [h5]
            · exact List.mem_cons_of_mem _ (ih x h)
        · simp only [if_neg h3] at hx
          rcases List.mem_cons.mp hx with h | h
          · subst h
            simp [fireUpdate]
            by_cases h5 : e.every_msec = 0 <;> simp [h5]
          · exact List.mem_cons_of_mem _ (ih x h)
      · simp only [if_neg h2] at hx
        rcases List.mem_cons.mp hx with h | h
        · subst h; simp
        · exact List.mem_cons_of_mem _ (ih x h)

/-- A task with `count = -1` is skipped and deleted by the tick: the pass over
the whole list behaves exactly as if the marked task were already absent. -/
theorem doEvents_skip_marked (now : Int) (e : Event) (hm : e.count = -1) :
    ∀ l1 l2 : List Event,
      doEvents now (l1 ++ e :: l2) = doEvents now (l1 ++ l2) := by
  intro l1
  induction l1 with
  | nil => intro l2; simp [doEvents, hm]
  | cons a l1 ih =>
    intro l2
    simp only [List.cons_append, doEvents, List.append_eq]
    rw [ih]

/-- A task present in the list that is not marked and whose firing condition
holds is fired during the tick (its id appears in the trace). -/
theorem doEvents_fires_mem (now : Int) (e : Event) (l : List Event)
    (he : e ∈ l) (hc : e.count ≠ -1) (hf : fireCond now e = true) :
    e.id ∈ (doEvents now l).2 := by
  induction l with
  | nil => cases he
  | cons a rest ih =>
    rcases List.mem_cons.mp he with rfl | hmem
    · simp only [doEvents, if_neg hc, if_pos hf]
      by_cases h3 : 0 < (fireUpdate now e).count
      · by_cases h4 : (fireUpdate now e).count - 1 = 0
        · simp [h3, h4]
        · simp [h3, h4]
      · simp [h3]
    · have htail := ih hmem
      simp only [doEvents]
      by_cases h1 : a.count = -1
      · simpa [h1] using htail
      · by_cases h2 : fireCond now a
        · by_cases h3 : 0 < (fireUpdate now a).count
          · by_cases h4 : (fireUpdate now a).count - 1 = 0
            · simp [h1, h2, h3, h4, htail]
            · simp [h1, h2, h3, h4, htail]
          · simp [h1, h2, h3, htail]
        · simp [h1, h2, htail]

/-- `EventDel` on a list whose earlier part does not contain the target id
removes exactly the target and hands back the suffix that followed it as the
continuation point. -/
theorem EventDel_spec (e : Event) (l1 l2 : List Event)
    (hid : ∀ a ∈ l1, a.id ≠ e.id) :
    EventDel e.id (l1 ++ e :: l2) = (l1 ++ l2, some l2) := by
  induction l1 with
  | nil => simp [EventDel]
  | cons a l1 ih =>
    have ha : a.id ≠ e.id := hid a (List.mem_cons_self a l1)
    have ih2 := ih (fun b hb => hid b (List.mem_cons_of_mem a hb))
    simp [EventDel, ha, ih2]

/-- C1: marking a task for removal (`count = -1`) and then ticking removes the
task exactly once; the tick behaves exactly as if the task were already gone
(so the task that followed it is visited, not skipped, and the removed task is
not revisited), and the underlying `EventDel` hands back precisely the suffix
after the removed node as continuation point. -/
theorem tick_after_mark_removes_once (now : Int) (l1 l2 : List Event) (e : Event)
    (hid : e.id ∉ (l1 ++ l2).map Event.id) :
    doEvents now (l1 ++ EventMarkDel e :: l2) = doEvents now (l1 ++ l2)
    ∧ EventDel (EventMarkDel e).id (l1 ++ EventMarkDel e :: l2) = (l1 ++ l2, some l2)
    ∧ (EventMarkDel e).id ∉ (doEvents now (l1 ++ l2)).1.map Event.id := by
  refine ⟨doEvents_skip_marked now (EventMarkDel e) rfl l1 l2, ?_, ?_⟩
  · refine EventDel_spec (EventMarkDel e) l1 l2 ?_
    intro a ha hcontra
    have hcontra2 : a.id = e.id := hcontra
    exact hid (by
      rw [← hcontra2]
      exact List.mem_map_of_mem Event.id (List.mem_append.mpr (Or.inl ha)))
  · intro hmem
    rcases List.mem_map.mp hmem with ⟨x, hx, hxe⟩
    have hxe2 : x.id = e.id := hxe
    have := doEvents_ids_subset now (l1 ++ l2) x hx
    rw [hxe2] at this
    exact hid this

/-- Witness for C1 at a concrete input: list `[a, marked e, b]`. -/
theorem tick_after_mark_removes_once_witness :
    ((⟨2, some "e", some 0, 0, 0, 5, 0⟩ : Event).id ∉
        ([⟨1, some "a", some 0, 0, 0, 0, 0⟩] ++
         [⟨3, some "b", some 0, 0, 0, 0, 0⟩] : List Event).map Event.id)
    ∧ (doEvents 0 ([⟨1, some "a", some 0, 0, 0, 0, 0⟩] ++
          EventMarkDel ⟨2, some "e", some 0, 0, 0, 5, 0⟩ ::
          [⟨3, some "b", some 0, 0, 0, 0, 0⟩])
        = doEvents 0 ([⟨1, some "a", some 0, 0, 0, 0, 0⟩] ++
            [⟨3, some "b", some 0, 0, 0, 0, 0⟩])) := by
  refine ⟨by decide, ?_⟩
  exact (tick_after_mark_removes_once 0 [⟨1, some "a", some 0, 0, 0, 0, 0⟩]
    [⟨3, some "b", some 0, 0, 0, 0, 0⟩] ⟨2, some "e", some 0, 0, 0, 5, 0⟩ (by decide)).1

/-- C6 (amended): a task whose stored `every_msec` field is 0 fires on every
tick unconditionally (short-circuit before the elapsed-time check); but
`EventAdd` clamps a requested `every_msec = 0` up to 100, so a task *created by
Add* with interval 0 actually carries interval 100 and does not fire on a tick
before 100 ms have elapsed. -/
theorem interval_zero_fires_every_tick (now now2 : Int) (l : List Event) (e : Event)
    (m : Option Module) (nm : String) (cb d fresh : Nat) (cnt : Int)
    (evs : List Event)
    (he : e ∈ l) (h0 : e.every_msec = 0) (hc : e.count ≠ -1)
    (hcnt : 0 ≤ cnt) (hlag : now2 - now < 100) :
    e.id ∈ (doEvents now2 l).2
    ∧ (EventAdd m (some nm) (some cb) d 0 cnt now fresh evs).ret
        = some ⟨fresh, some nm, some cb, d, 100, cnt, now⟩
    ∧ (doEvents now2 [⟨fresh, some nm, some cb, d, 100, cnt, now⟩]).2 = [] := by
  refine ⟨?_, ?_, ?_⟩
  · exact doEvents_fires_mem now2 e l he hc
      (by simp [fireCond, h0])
  · have hval : ¬((some nm : Option String) = none ∨ (0:Int) < 0 ∨ cnt < 0
        ∨ (some cb : Option Nat) = none) := by
      push_neg
      refine ⟨by simp, by omega, by omega, by simp⟩
    have hcnt2 : ¬ cnt < 0 := by omega
    simp [EventAdd, hval, hcnt2]
  · have hfc : fireCond now2 (⟨fresh, some nm, some cb, d, 100, cnt, now⟩ : Event) = false := by
      simp [fireCond, minimum_msec_since_last_run]
      omega
    by_cases hm : cnt = -1
    · simp [doEvents, hm]
    · simp [doEvents, hm, hfc]

/-- Witness for C6 aggregating concrete instances of all hypotheses. -/
theorem interval_zero_fires_every_tick_witness :
    (⟨9, some "t", some 0, 0, 0, 0, 7⟩ : Event).id ∈
        (doEvents 5 [⟨9, some "t", some 0, 0, 0, 0, 7⟩]).2
    ∧ (EventAdd none (some "t") (some 0) 0 0 0 0 9 []).ret
        = some ⟨9, some "t", some 0, 0, 100, 0, 0⟩ := by
  have h := interval_zero_fires_every_tick 0 5 [⟨9, some "t", some 0, 0, 0, 0, 7⟩]
    ⟨9, some "t", some 0, 0, 0, 0, 7⟩ none "t" 0 0 9 0 []
    (by decide) (by decide) (by decide) (by decide) (by decide)
  exact ⟨h.1, h.2.1⟩

/-- Counterexample to C6 as stated: creating a task via `EventAdd` with
`every_msec = 0` yields a task whose interval is 100 (the clamp), and a tick at
the very moment of creation fires nothing — the task does not fire on every
tick. -/
theorem interval_zero_add_clamped_cex :
    ((EventAdd none (some "x") (some 0) 0 0 0 0 7 []).ret.map Event.every_msec
        = some 100)
    ∧ (doEvents 0 ((EventAdd none (some "x") (some 0) 0 0 0 0 7 []).ret.elim []
        (fun e => [e]))).2 = [] := by
  constructor
  · rfl
  · rfl

/-- One tick on a singleton list holding an unconditionally-firing task with
positive remaining count `n`: the task fires, and is auto-removed exactly when
the decremented count reaches 0. -/
theorem doEvents_singleton_countdown (now lr : Int) (i cb d : Nat)
    (nm : Option String) (c : Int) (hc0 : 0 < c) :
    doEvents now [⟨i, nm, cb, d, 0, c, lr⟩]
      = (if c = 1 then [] else [⟨i, nm, cb, d, 0, c - 1, lr⟩], [i]) := by
  have hc : ¬ (c = -1) := by omega
  have hf : fireCond now (⟨i, nm, cb, d, 0, c, lr⟩ : Event) = true := by
    simp [fireCond]
  have hu : fireUpdate now (⟨i, nm, cb, d, 0, c, lr⟩ : Event)
      = ⟨i, nm, cb, d, 0, c, lr⟩ := by
    simp [fireUpdate]
  by_cases h1 : c = 1
  · subst h1
    simp [doEvents, hc, hf, hu]
  · have hne : ¬ (c - 1 = 0) := by omega
    simp [doEvents, hc, hf, hu, hc0, hne, h1]

theorem iterTicks_nil (now : Int) (k : Nat) : iterTicks now k [] = ([], []) := by
  induction k with
  | zero => rfl
  | succ k ih => simp [iterTicks, doEvents, ih]

/-- Splitting an iterated tick run into two consecutive runs. -/
theorem iterTicks_add (now : Int) (a b : Nat) (l : List Event) :
    iterTicks now (a + b) l
      = ((iterTicks now b (iterTicks now a l).1).1,
         (iterTicks now a l).2 ++ (iterTicks now b (iterTicks now a l).1).2) := by
  induction a generalizing l with
  | zero => simp [iterTicks]
  | succ a ih =>
    have hsucc : a + 1 + b = (a + b) + 1 := by omega
    rw [hsucc]
    simp only [iterTicks]
    rw [ih (doEvents now l).1]
    simp [List.append_assoc]

/-- C7: a task with `count = N > 0` (and an always-true firing condition,
`every_msec = 0`) is decremented on each fire: after `j ≤ N` ticks it survives
with count `N - j` (having fired `j` times) unless `j = N`, and for every
`k ≥ N` ticks it has fired exactly `N` times, has been removed from the list,
and `EventFind` no longer returns anything. -/
theorem count_n_auto_removal (now lr : Int) (i cb d : Nat) (nm : Option String)
    (n k j : Nat) (hn : 0 < n) (hj : j ≤ n) (hk : n ≤ k) :
    iterTicks now j [⟨i, nm, cb, d, 0, (n : Int), lr⟩]
      = (if j = n then [] else [⟨i, nm, cb, d, 0, ((n - j : Nat) : Int), lr⟩],
         List.replicate j i)
    ∧ iterTicks now k [⟨i, nm, cb, d, 0, (n : Int), lr⟩] = ([], List.replicate n i)
    ∧ ∀ s, EventFind s (iterTicks now k [⟨i, nm, cb, d, 0, (n : Int), lr⟩]).1 = none := by
  have main : ∀ j n : Nat, 0 < n → j ≤ n →
      iterTicks now j [⟨i, nm, cb, d, 0, (n : Int), lr⟩]
        = (if j = n then [] else [⟨i, nm, cb, d, 0, ((n - j : Nat) : Int), lr⟩],
           List.replicate j i) := by
    intro j
    induction j with
    | zero =>
      intro n hn0 _
      have : ¬ (0 = n) := by omega
      simp [iterTicks, this]
    | succ j ih =>
      intro n hn0 hjn
      simp only [iterTicks]
      rw [doEvents_singleton_countdown now lr i cb d nm (n : Int) (by omega)]
      by_cases h1 : n = 1
      · subst h1
        have hj0 : j = 0 := by omega
        subst hj0
        norm_num [iterTicks_nil]
      · have h1' : ¬ ((n : Int) = 1) := by omega
        simp only [if_neg h1']
        have hcast : (n : Int) - 1 = ((n - 1 : Nat) : Int) := by omega
        rw [hcast]
        have hrec := ih (n - 1) (by omega) (by omega)
        rw [hrec]
        have hiff : (j = n - 1) ↔ (j + 1 = n) := by omega
        have hsub : n - 1 - j = n - (j + 1) := by omega
        by_cases h2 : j + 1 = n
        · simp only [if_pos (hiff.mpr h2), if_pos h2, List.replicate_succ]
          rfl
        · have h2' : ¬ (j = n - 1) := by omega
          simp only [if_neg h2, if_neg h2', hsub, List.replicate_succ]
          rfl
  refine ⟨main j n hn hj, ?_, ?_⟩
  · have hk2 : k = n + (k - n) := by omega
    rw [hk2, iterTicks_add, main n n hn (le_refl n)]
    simp [iterTicks_nil]
  · intro s
    have hk2 : k = n + (k - n) := by omega
    rw [hk2, iterTicks_add, main n n hn (le_refl n)]
    simp [iterTicks_nil, EventFind]

/-- Witness for C7: a task with count 2 survives one tick with count 1, and is
gone (also from `EventFind`) after three ticks, having fired exactly twice. -/
theorem count_n_auto_removal_witness :
    iterTicks 0 1 [⟨4, some "w", some 0, 0, 0, 2, 0⟩]
      = ([⟨4, some "w", some 0, 0, 0, 1, 0⟩], [4])
    ∧ iterTicks 0 3 [⟨4, some "w", some 0, 0, 0, 2, 0⟩] = ([], [4, 4])
    ∧ EventFind "w" (iterTicks 0 3 [⟨4, some "w", some 0, 0, 0, 2, 0⟩]).1 = none := by
  have h := count_n_auto_removal 0 0 4 0 0 (some "w") 2 3 1
    (by decide) (by decide) (by decide)
  exact ⟨by simpa using h.1, by simpa using h.2.1, h.2.2 "w"⟩

/-- C8 (amended): `EventAdd` fails (returns no task) exactly when the name is
absent (a NULL pointer — an empty-but-present name string is accepted), the
callback is absent, `every_msec < 0`, or `count < 0`; on failure the task list
is untouched and the owner's error code is set to `MODERR_INVALID`; on success
the new task is linked in and the owner's error code cleared. -/
theorem add_rejects_invalid (m : Module) (name : Option String) (cb : Option Nat)
    (d : Nat) (em cnt now : Int) (fresh : Nat) (evs : List Event) :
    ((EventAdd (some m) name cb d em cnt now fresh evs).ret = none ↔
        (name = none ∨ cb = none ∨ em < 0 ∨ cnt < 0))
    ∧ ((name = none ∨ cb = none ∨ em < 0 ∨ cnt < 0) →
        (EventAdd (some m) name cb d em cnt now fresh evs).events = evs
        ∧ (EventAdd (some m) name cb d em cnt now fresh evs).module
            = some { errorcode := MODERR_INVALID })
    ∧ (¬ (name = none ∨ cb = none ∨ em < 0 ∨ cnt < 0) →
        (∃ e, (EventAdd (some m) name cb d em cnt now fresh evs).ret = some e
            ∧ (EventAdd (some m) name cb d em cnt now fresh evs).events = e :: evs)
        ∧ (EventAdd (some m) name cb d em cnt now fresh evs).module
            = some { errorcode := MODERR_NOERROR }) := by
  have hperm : (name = none ∨ em < 0 ∨ cnt < 0 ∨ cb = none)
      ↔ (name = none ∨ cb = none ∨ em < 0 ∨ cnt < 0) := by tauto
  by_cases h : name = none ∨ em < 0 ∨ cnt < 0 ∨ cb = none
  · refine ⟨?_, ?_, ?_⟩
    · simp [EventAdd, h, hperm.mp h]
    · intro _
      simp [EventAdd, h]
    · intro hcon
      exact absurd (hperm.mp h) hcon
  · refine ⟨?_, ?_, ?_⟩
    · simp only [EventAdd, if_neg h]
      simp [hperm.not.mp h]
    · intro hcon
      exact absurd (hperm.mpr hcon) h
    · intro _
      simp only [EventAdd, if_neg h]
      exact ⟨⟨_, rfl, rfl⟩, rfl⟩

/-- Witness for C8: a NULL name is rejected with no partial effect, and a valid
request succeeds. -/
theorem add_rejects_invalid_witness :
    ((EventAdd (some ⟨0⟩) none (some 0) 0 1000 0 0 7 []).ret = none
      ∧ (EventAdd (some ⟨0⟩) none (some 0) 0 1000 0 0 7 []).events = []
      ∧ (EventAdd (some ⟨0⟩) none (some 0) 0 1000 0 0 7 []).module
          = some { errorcode := MODERR_INVALID })
    ∧ ((EventAdd (some ⟨0⟩) (some "ok") (some 0) 0 1000 0 0 7 []).ret ≠ none) := by
  constructor
  · have h := add_rejects_invalid ⟨0⟩ none (some 0) 0 1000 0 0 7 []
    have h2 := h.2.1 (Or.inl rfl)
    exact ⟨h.1.mpr (Or.inl rfl), h2.1, h2.2⟩
  · have h := add_rejects_invalid ⟨0⟩ (some "ok") (some 0) 0 1000 0 0 7 []
    intro hcon
    have := h.1.mp hcon
    simp at this

/-- Counterexample to C8 as stated: with an *empty* (but present) name string
the code does not fail — `EventAdd` returns a task; "name is empty" is
accepted, only a NULL name is rejected. -/
theorem add_empty_name_accepted_cex :
    ((EventAdd (some ⟨0⟩) (some "") (some 0) 0 1000 0 0 7 []).ret).isSome = true
    ∧ (EventAdd (some ⟨0⟩) (some "") (some 0) 0 1000 0 0 7 []).module
        = some { errorcode := MODERR_NOERROR } := by
  constructor
  · rfl
  · rfl

/-- `EventInfo` from the modify API: five presence flags (`EMOD_EVERY`,
`EMOD_HOWMANY`, `EMOD_NAME`, `EMOD_EVENT`, `EMOD_DATA`) plus the candidate new
values. -/
structure EventInfo where
  fEvery : Bool
  fHowmany : Bool
  fName : Bool
  fEvent : Bool
  fData : Bool
  every_msec : Int
  count : Int
  name : Option String
  cb : Option Nat
  dat : Nat
  deriving Repr, DecidableEq

/-- `EventMod` from api-event.c: fails (result `-1`) when the task or the
request is absent; otherwise stores each flagged field verbatim — with no
validation and no clamping and no diagnostic — and returns 0.  (The owner
errorcode bookkeeping is elided; no claim observes it.) -/
def EventMod (ev : Option Event) (mods : Option EventInfo) : Option Event × Int :=
  match ev, mods with
  | some e, some m =>
    (some { e with
        every_msec := if m.fEvery then m.every_msec else e.every_msec,
        count := if m.fHowmany then m.count else e.count,
        name := if m.fName then m.name else e.name,
        cb := if m.fEvent then m.cb else e.cb,
        dat := if m.fData then m.dat else e.dat }, 0)
  | some e, none => (some e, -1)
  | none, _ => (none, -1)

/-- C10: for an existing task and a present request, `Modify` succeeds, stores
each flagged value verbatim (even an `every_msec` below 100, zero or negative,
and an arbitrary count — no validation, no clamp, no diagnostic) and leaves
every unflagged field, the identity and `last_run` unchanged; by contrast
`EventAdd` clamps the same low interval up to 100 with a diagnostic. -/
theorem mod_stores_verbatim (e : Event) (m : EventInfo) :
    (EventMod (some e) (some m)).2 = 0
    ∧ (∃ e2, (EventMod (some e) (some m)).1 = some e2
        ∧ e2.id = e.id
        ∧ e2.every_msec = (if m.fEvery then m.every_msec else e.every_msec)
        ∧ e2.count = (if m.fHowmany then m.count else e.count)
        ∧ e2.name = (if m.fName then m.name else e.name)
        ∧ e2.cb = (if m.fEvent then m.cb else e.cb)
        ∧ e2.dat = (if m.fData then m.dat else e.dat)
        ∧ e2.last_run = e.last_run)
    ∧ (∀ v : Int, m.fEvery = true →
        ((EventMod (some e) (some { m with every_msec := v })).1.map
          Event.every_msec = some v))
    ∧ (∀ v : Int, 0 ≤ v → v < 100 →
        ((EventAdd none (some "n") (some 0) 0 v 0 0 0 []).ret.map
            Event.every_msec = some 100
          ∧ (EventAdd none (some "n") (some 0) 0 v 0 0 0 []).warned = true)) := by
  refine ⟨rfl, ⟨_, rfl, rfl, rfl, rfl, rfl, rfl, rfl, rfl⟩, ?_, ?_⟩
  · intro v hf
    simp [EventMod, hf]
  · intro v hv0 hv
    have hval : ¬((some "n" : Option String) = none ∨ v < 0 ∨ (0:Int) < 0
        ∨ (some 0 : Option Nat) = none) := by
      push_neg
      refine ⟨by simp, by omega, by omega, by simp⟩
    have hnv : ¬ v < 0 := by omega
    constructor
    · simp [EventAdd, hval, hv, hnv]
    · simp [EventAdd, hval, hv, hnv]

/-- Witness for C10: modifying an existing task to `every_msec = 0` stores 0
verbatim where `EventAdd` would have clamped 50 up to 100. -/
theorem mod_stores_verbatim_witness :
    (EventMod (some ⟨1, some "t", some 0, 0, 500, 0, 0⟩)
        (some ⟨true, false, false, false, false, 0, 0, none, none, 0⟩)).1.map
          Event.every_msec = some 0
    ∧ (EventAdd none (some "n") (some 0) 0 50 0 0 0 []).ret.map
        Event.every_msec = some 100 := by
  have h := mod_stores_verbatim ⟨1, some "t", some 0, 0, 500, 0, 0⟩
    ⟨true, false, false, false, false, 7, 0, none, none, 0⟩
  exact ⟨h.2.2.1 0 rfl, (h.2.2.2 50 (by omega) (by omega)).1⟩

end Sched

namespace Hist

/-- A message tag: key/value annotation attached to a line. -/
structure MessageTag where
  name : String
  value : String
  deriving Repr, DecidableEq

/-- `struct HistoryLogLine`: timestamp (seconds), deep-copied tag set, raw
payload text. -/
structure HistoryLogLine where
  t : Int
  mtags : List MessageTag
  line : String
  deriving Repr, DecidableEq

/-- `struct HistoryLogObject`: per-target log.  `lines` is the
`head`/`tail`-linked chain with the head (oldest entry) first; `num_lines` and
`oldest_t` are the cached aggregate fields (`oldest_t = 0` is the empty
sentinel).  The `strlcpy` truncation of the name to `OBJECTLEN` is elided (the
bound is an external constant and no claim exercises it). -/
structure HistoryLogObject where
  name : String
  lines : List HistoryLogLine
  num_lines : Int
  oldest_t : Int
  deriving Repr, DecidableEq

/-- ASCII `tolower`, as used by `strcasecmp`. -/
def lowerChar (c : Char) : Char :=
  if 65 ≤ c.toNat ∧ c.toNat ≤ 90 then Char.ofNat (c.toNat + 32) else c

/-- `strcasecmp(...) == 0`: ASCII-case-insensitive name equality. -/
def nameEq (a b : String) : Bool :=
  a.data.map lowerChar == b.data.map lowerChar

/-- `find_mtag`: first tag with the given key. -/
def find_mtag (tags : List MessageTag) (nm : String) : Option MessageTag :=
  tags.find? (fun m => m.name == nm)

/-- `hbm_duplicate_mtags`: duplicates the caller's tags (`AppendListItem`
preserves their order); when no `"time"` tag is present a synthesized one
carrying the formatted current wall clock (`nowstr`) is prepended
(`AddListItem`).  The line timestamp is `server_time_to_unix_time` — external,
modelled by the `parse` parameter — applied to the effective time value. -/
def hbm_duplicate_mtags (parse : String → Int) (nowstr : String)
    (mtags : List MessageTag) : List MessageTag × Int :=
  match find_mtag mtags "time" with
  | some n => (mtags, parse n.value)
  | none => (⟨"time", nowstr⟩ :: mtags, parse nowstr)

/-- `hbm_history_add_line`: appends the new line at the tail, increments
`num_lines`, and lowers `oldest_t` when the new timestamp is older than the
cached one or nothing was cached yet
(`(l->t < h->oldest_t) || (h->oldest_t == 0)`). -/
def hbm_history_add_line (parse : String → Int) (nowstr : String)
    (h : HistoryLogObject) (mtags : List MessageTag) (line : String) :
    HistoryLogObject :=
  let d := hbm_duplicate_mtags parse nowstr mtags
  { h with lines := h.lines ++ [⟨d.2, d.1, line⟩],
           num_lines := h.num_lines + 1,
           oldest_t := if d.2 < h.oldest_t ∨ h.oldest_t = 0 then d.2 else h.oldest_t }

/-- The hash index `history_hash_table`: bucket chains indexed by the keyed
case-insensitive hash.  The siphash itself is external (keyed with a random
process-lifetime key), so it appears as the `hash` parameter of each
operation; its `% HISTORY_BACKEND_MEM_HASH_TABLE_SIZE` reduction lives inside
that parameter. -/
def HistTable : Type := Nat → List HistoryLogObject

/-- A table with no objects at all (fresh `memset` state). -/
def emptyTable : HistTable := fun _ => []

/-- Scan of one bucket chain: first object whose name compares equal
case-insensitively (loop body of `hbm_find_object`). -/
def findOb (object : String) : List HistoryLogObject → Option HistoryLogObject
  | [] => none
  | h :: hs => if nameEq object h.name then some h else findOb object hs

/-- `hbm_find_object`. -/
def hbm_find_object (hash : String → Nat) (tbl : HistTable) (object : String) :
    Option HistoryLogObject :=
  findOb object (tbl (hash object))

/-- In-place mutation of the found object, purely: replace the first
name-matching object of a bucket. -/
def putBack (object : String) (h2 : HistoryLogObject) :
    List HistoryLogObject → List HistoryLogObject
  | [] => []
  | x :: xs => if nameEq object x.name then h2 :: xs else x :: putBack object h2 xs

/-- `DelListItem` on the bucket chain at the object found by name
(`hbm_delete_object_hlo`): removes the first name-matching object. -/
def delOb (object : String) : List HistoryLogObject → List HistoryLogObject
  | [] => []
  | x :: xs => if nameEq object x.name then xs else x :: delOb object xs

/-- `hbm_history_add` (= `hbm_find_or_add_object` + `hbm_history_add_line`):
find the object in its bucket and mutate it in place, or create a zeroed
object, prepend it to the bucket (`AddListItem`) and add the line to it. -/
def hbm_history_add (hash : String → Nat) (parse : String → Int) (nowstr : String)
    (tbl : HistTable) (object : String) (mtags : List MessageTag) (line : String) :
    HistTable :=
  let hv := hash object
  let b := tbl hv
  let b2 :=
    match findOb object b with
    | some h => putBack object (hbm_history_add_line parse nowstr h mtags line) b
    | none => hbm_history_add_line parse nowstr ⟨object, [], 0, 0⟩ mtags line :: b
  fun i => if i = hv then b2 else tbl i

/-- Age sweep of `hbm_history_del`, after `h->oldest_t = 0`: walks the chain,
deletes every line with `l->t < redline` (counting the deletions, which
`hbm_history_del_line` turns into `num_lines--`), and folds the surviving
timestamps into `oldest_t` via
`(h->oldest_t == 0) || (l->t < h->oldest_t)`. -/
def sweepOld (redline oldest : Int) :
    List HistoryLogLine → List HistoryLogLine × Nat × Int
  | [] => ([], 0, oldest)
  | l :: ls =>
    if l.t < redline then
      let r := sweepOld redline oldest ls
      (r.1, r.2.1 + 1, r.2.2)
    else
      let o2 := if oldest = 0 ∨ l.t < oldest then l.t else oldest
      let r := sweepOld redline o2 ls
      (l :: r.1, r.2.1, r.2.2)

/-- Count sweep of `hbm_history_del`, after `h->oldest_t = 0`: deletes from
the head while the running `num_lines` exceeds `max_lines`, then folds the
surviving timestamps into `oldest_t` the same way. -/
def sweepCount (max_lines num oldest : Int) :
    List HistoryLogLine → List HistoryLogLine × Int × Int
  | [] => ([], num, oldest)
  | l :: ls =>
    if max_lines < num then
      sweepCount max_lines (num - 1) oldest ls
    else
      let o2 := if oldest = 0 ∨ l.t < oldest then l.t else oldest
      let r := sweepCount max_lines num o2 ls
      (l :: r.1, r.2.1, r.2.2)

/-- The in-place mutation `hbm_history_del` performs on the found object:
the age pass runs only when `h->oldest_t < redline` (`redline = TStime() -
max_time`), then the count pass only when `h->num_lines > max_lines`, each
resetting `oldest_t` to 0 and recomputing it over the survivors in the same
pass. -/
def delTransform (now max_lines max_time : Int) (h : HistoryLogObject) :
    HistoryLogObject :=
  let h1 :=
    if h.oldest_t < now - max_time then
      { h with lines := (sweepOld (now - max_time) 0 h.lines).1,
               num_lines := h.num_lines
                 - ((sweepOld (now - max_time) 0 h.lines).2.1 : Int),
               oldest_t := (sweepOld (now - max_time) 0 h.lines).2.2 }
    else h
  if max_lines < h1.num_lines then
    { h1 with lines := (sweepCount max_lines h1.num_lines 0 h1.lines).1,
              num_lines := (sweepCount max_lines h1.num_lines 0 h1.lines).2.1,
              oldest_t := (sweepCount max_lines h1.num_lines 0 h1.lines).2.2 }
  else h1

/-- `hbm_history_del` (`EnforceRetention`): no-op returning 0 for an absent
target; otherwise applies the two retention passes to the found object in
place. -/
def hbm_history_del (hash : String → Nat) (now : Int) (tbl : HistTable)
    (object : String) (max_lines max_time : Int) : Int × HistTable :=
  match hbm_find_object hash tbl object with
  | none => (0, tbl)
  | some h =>
    (1, fun i => if i = hash object
                 then putBack object (delTransform now max_lines max_time h)
                   (tbl (hash object))
                 else tbl i)

/-- `hbm_history_destroy`: frees every line and unlinks the object from its
bucket; returns 0 when the target has no log object. -/
def hbm_history_destroy (hash : String → Nat) (tbl : HistTable) (object : String) :
    Int × HistTable :=
  match hbm_find_object hash tbl object with
  | none => (0, tbl)
  | some _ =>
    (1, fun i => if i = hash object then delOb object (tbl (hash object)) else tbl i)

/-- A replay recipient: only its capability set matters. -/
structure Client where
  caps : List String
  deriving Repr, DecidableEq

def HasCapability (c : Client) (s : String) : Bool := c.caps.contains s

/-- `can_receive_history`: requires the `server-time` (delivery timestamp)
capability. -/
def can_receive_history (c : Client) : Bool := HasCapability c "server-time"

/-- A protocol line written to the transport during replay. -/
inductive OutMsg where
  | openBatch : String → String → OutMsg
  | payload : List MessageTag → String → OutMsg
  | closeBatch : String → OutMsg
  deriving Repr, DecidableEq

/-- `hbm_send_line`: skips recipients without `server-time`; otherwise emits
the stored line with its tags, temporarily extended with a `batch` tag when a
batch is open (`BadPtr(batchid)` = empty batch id). -/
def hbm_send_line (c : Client) (l : HistoryLogLine) (batchid : String) :
    List OutMsg :=
  if can_receive_history c then
    if batchid = "" then [.payload l.mtags l.line]
    else [.payload (⟨"batch", batchid⟩ :: l.mtags) l.line]
  else []

/-- The emission loop `for (l = h->head; l; l = l->next) hbm_send_line(...)`. -/
def sendAll (c : Client) (batch : String) : List HistoryLogLine → List OutMsg
  | [] => []
  | l :: ls => hbm_send_line c l batch ++ sendAll c batch ls

/-- The opaque `HistoryFilter`: per the spec an external predicate over
`(timestamp, text)`. -/
def HistoryFilter : Type := Int → String → Bool

/-- `hbm_history_request` (`Replay`): no-op when the target is absent or the
recipient lacks `server-time`; with the `batch` capability a batch
(externally generated id, the `genBatch` parameter) is opened and closed
around the emitted lines.  Note the `filt` parameter is never consulted,
mirroring the source, which ignores its `HistoryFilter *filter` argument. -/
def hbm_history_request (hash : String → Nat) (genBatch : String)
    (tbl : HistTable) (c : Client) (object : String) (filt : HistoryFilter) :
    Int × List OutMsg :=
  match hbm_find_object hash tbl object with
  | none => (0, [])
  | some h =>
    if can_receive_history c then
      let batch := if HasCapability c "batch" then genBatch else ""
      let opening := if HasCapability c "batch" then [OutMsg.openBatch batch object]
                     else []
      let closing := if batch = "" then [] else [OutMsg.closeBatch batch]
      (1, opening ++ sendAll c batch h.lines ++ closing)
    else (0, [])

/-- The minimum timestamp of a list of lines, with the store's empty sentinel
0 for the empty list. -/
def minTs : List HistoryLogLine → Int
  | [] => 0
  | l :: ls => ls.foldl (fun a x => min a x.t) l.t

/-- The cached-aggregate invariant of a log object: `num_lines` counts the
lines present and `oldest_t` is their minimum timestamp (0 when none). -/
def cacheOk (h : HistoryLogObject) : Prop :=
  h.num_lines = (h.lines.length : Int) ∧ h.oldest_t = minTs h.lines

/-- The sequential `oldest_t` recomputation pattern
`if ((h->oldest_t == 0) || (l->t < h->oldest_t)) h->oldest_t = l->t` folded
over a list of lines (proof-side helper used to describe the sweeps). -/
def oldFold (acc : Int) : List HistoryLogLine → Int
  | [] => acc
  | l :: ls => oldFold (if acc = 0 ∨ l.t < acc then l.t else acc) ls

theorem nameEq_refl (s : String) : nameEq s s = true := by
  simp [nameEq]

theorem foldlMin_le_init (ls : List HistoryLogLine) (a : Int) :
    ls.foldl (fun a x => min a x.t) a ≤ a := by
  induction ls generalizing a with
  | nil => simp
  | cons l ls ih =>
    simp only [List.foldl_cons]
    exact le_trans (ih (min a l.t)) (min_le_left a l.t)

theorem foldlMin_le_mem (ls : List HistoryLogLine) (a : Int) (l : HistoryLogLine)
    (hl : l ∈ ls) : ls.foldl (fun a x => min a x.t) a ≤ l.t := by
  induction ls generalizing a with
  | nil => cases hl
  | cons x xs ih =>
    simp only [List.foldl_cons]
    rcases List.mem_cons.mp hl with rfl | hmem
    · exact le_trans (foldlMin_le_init xs (min a l.t)) (min_le_right a l.t)
    · exact ih (min a x.t) hmem

/-- `minTs` is a lower bound on the present timestamps. -/
theorem minTs_le (ls : List HistoryLogLine) (l : HistoryLogLine) (hl : l ∈ ls) :
    minTs ls ≤ l.t := by
  cases ls with
  | nil => cases hl
  | cons x xs =>
    rcases List.mem_cons.mp hl with rfl | hmem
    · exact foldlMin_le_init xs l.t
    · exact foldlMin_le_mem xs x.t l hmem

theorem foldlMin_mem (ls : List HistoryLogLine) (a : Int) :
    ls.foldl (fun a x => min a x.t) a = a
    ∨ ∃ l ∈ ls, ls.foldl (fun a x => min a x.t) a = l.t := by
  induction ls generalizing a with
  | nil => exact Or.inl rfl
  | cons x xs ih =>
    simp only [List.foldl_cons]
    rcases ih (min a x.t) with h | ⟨l, hl, h⟩
    · rw [h]
      rcases le_or_lt a x.t with hle | hlt
      · exact Or.inl (min_eq_left hle)
      · exact Or.inr ⟨x, List.mem_cons_self x xs, min_eq_right (le_of_lt hlt)⟩
    · exact Or.inr ⟨l, List.mem_cons_of_mem x hl, h⟩

/-- On a nonempty list `minTs` is attained by one of the lines. -/
theorem minTs_mem (ls : List HistoryLogLine) (hne : ls ≠ []) :
    ∃ l ∈ ls, minTs ls = l.t := by
  cases ls with
  | nil => exact absurd rfl hne
  | cons x xs =>
    rcases foldlMin_mem xs x.t with h | ⟨l, hl, h⟩
    · exact ⟨x, List.mem_cons_self x xs, h⟩
    · exact ⟨l, List.mem_cons_of_mem x hl, h⟩

/-- `minTs` of a nonempty list with a line appended. -/
theorem minTs_append (ls : List HistoryLogLine) (l : HistoryLogLine)
    (hne : ls ≠ []) : minTs (ls ++ [l]) = min (minTs ls) l.t := by
  cases ls with
  | nil => exact absurd rfl hne
  | cons x xs =>
    simp [minTs, List.foldl_append]

/-- The minimum of all-nonzero timestamps is nonzero. -/
theorem minTs_ne_zero (ls : List HistoryLogLine) (hne : ls ≠ [])
    (h0 : ∀ l ∈ ls, l.t ≠ 0) : minTs ls ≠ 0 := by
  rcases minTs_mem ls hne with ⟨l, hl, h⟩
  rw [h]
  exact h0 l hl

/-- With a nonzero accumulator and all-nonzero timestamps the C recomputation
pattern is just a running minimum. -/
theorem oldFold_pos (ls : List HistoryLogLine) :
    ∀ acc : Int, acc ≠ 0 → (∀ l ∈ ls, l.t ≠ 0) →
      oldFold acc ls = ls.foldl (fun a x => min a x.t) acc
      ∧ ls.foldl (fun a x => min a x.t) acc ≠ 0 := by
  induction ls with
  | nil => intro acc hacc _; exact ⟨rfl, hacc⟩
  | cons l ls ih =>
    intro acc hacc hts
    have hlt : l.t ≠ 0 := hts l (List.mem_cons_self l ls)
    have hstep : (if acc = 0 ∨ l.t < acc then l.t else acc) = min acc l.t := by
      rcases le_or_lt acc l.t with hle | hgt
      · rw [min_eq_left hle]
        have : ¬ (acc = 0 ∨ l.t < acc) := by
          push_neg; exact ⟨hacc, by omega⟩
        rw [if_neg this]
      · rw [min_eq_right (le_of_lt hgt)]
        rw [if_pos (Or.inr hgt)]
    have hmin : min acc l.t ≠ 0 := by
      rcases le_or_lt acc l.t with hle | hgt
      · rw [min_eq_left hle]; exact hacc
      · rw [min_eq_right (le_of_lt hgt)]; exact hlt
    have hrest : ∀ x ∈ ls, x.t ≠ 0 := fun x hx => hts x (List.mem_cons_of_mem l hx)
    have := ih (min acc l.t) hmin hrest
    simp only [oldFold, List.foldl_cons, hstep]
    exact this

/-- Starting from the reset sentinel, the C recomputation pattern over
all-nonzero timestamps computes exactly `minTs`. -/
theorem oldFold_zero (ls : List HistoryLogLine) (h0 : ∀ l ∈ ls, l.t ≠ 0) :
    oldFold 0 ls = minTs ls := by
  cases ls with
  | nil => rfl
  | cons l ls =>
    have hlt : l.t ≠ 0 := h0 l (List.mem_cons_self l ls)
    have hrest : ∀ x ∈ ls, x.t ≠ 0 := fun x hx => h0 x (List.mem_cons_of_mem l hx)
    have hif : (if (0:Int) = 0 ∨ l.t < (0:Int) then l.t else 0) = l.t := by simp
    simp only [oldFold, minTs, hif]
    exact (oldFold_pos ls l.t hlt hrest).1

theorem findOb_name (object : String) (b : List HistoryLogObject)
    (h : HistoryLogObject) (hf : findOb object b = some h) :
    nameEq object h.name = true := by
  induction b with
  | nil => cases hf
  | cons x xs ih =>
    by_cases hx : nameEq object x.name
    · simp only [findOb, if_pos hx] at hf
      cases hf
      exact hx
    · simp only [findOb, if_neg hx] at hf
      exact ih hf

theorem findOb_putBack (object : String) (b : List HistoryLogObject)
    (h h2 : HistoryLogObject) (hf : findOb object b = some h)
    (hn : nameEq object h2.name = true) :
    findOb object (putBack object h2 b) = some h2 := by
  induction b with
  | nil => cases hf
  | cons x xs ih =>
    by_cases hx : nameEq object x.name
    · simp [putBack, findOb, hx, hn]
    · simp only [findOb, if_neg hx] at hf
      simp [putBack, findOb, hx, ih hf]

theorem findOb_none_of_countP_zero (object : String) (b : List HistoryLogObject)
    (hz : b.countP (fun x => nameEq object x.name) = 0) :
    findOb object b = none := by
  induction b with
  | nil => rfl
  | cons x xs ih =>
    rw [List.countP_cons] at hz
    by_cases hx : nameEq object x.name
    · simp [hx] at hz
    · simp only [hx, if_neg] at hz
      simp only [findOb, if_neg hx]
      exact ih (by omega)

/-- Deleting the (unique) name match from a bucket leaves no name match. -/
theorem findOb_delOb_none (object : String) (b : List HistoryLogObject)
    (huniq : b.countP (fun x => nameEq object x.name) ≤ 1) :
    findOb object (delOb object b) = none := by
  induction b with
  | nil => rfl
  | cons x xs ih =>
    rw [List.countP_cons] at huniq
    by_cases hx : nameEq object x.name
    · simp only [delOb, if_pos hx]
      simp only [hx, if_pos] at huniq
      exact findOb_none_of_countP_zero object xs (by omega)
    · simp only [delOb, findOb, if_neg hx]
      simp only [hx] at huniq
      exact ih (by omega)

/-- The bucket walk of `hbm_history_add`: the mutated (or freshly created)
object is what a subsequent lookup of the same target returns. -/
theorem find_after_add (hash : String → Nat) (parse : String → Int)
    (nowstr : String) (tbl : HistTable) (object : String)
    (mtags : List MessageTag) (line : String) :
    hbm_find_object hash (hbm_history_add hash parse nowstr tbl object mtags line)
        object
      = some (hbm_history_add_line parse nowstr
          ((hbm_find_object hash tbl object).getD ⟨object, [], 0, 0⟩) mtags line) := by
  unfold hbm_history_add hbm_find_object
  cases hf : findOb object (tbl (hash object)) with
  | none =>
    simp only [hf, Option.getD]
    have hn : nameEq object
        (hbm_history_add_line parse nowstr ⟨object, [], 0, 0⟩ mtags line).name
          = true := by
      simp [hbm_history_add_line, nameEq_refl]
    simp [findOb, hn]
  | some h =>
    simp only [hf, Option.getD]
    have hn : nameEq object
        (hbm_history_add_line parse nowstr h mtags line).name = true := by
      have := findOb_name object (tbl (hash object)) h hf
      simpa [hbm_history_add_line] using this
    have hrw := findOb_putBack object (tbl (hash object)) h
      (hbm_history_add_line parse nowstr h mtags line) hf hn
    simpa using hrw

/-- The timestamp `hbm_duplicate_mtags` attaches is always the `parse` of some
tag value, hence nonzero when `parse` never yields 0. -/
theorem duplicate_mtags_t_ne_zero (parse : String → Int) (nowstr : String)
    (mtags : List MessageTag) (hparse : ∀ s, parse s ≠ 0) :
    (hbm_duplicate_mtags parse nowstr mtags).2 ≠ 0 := by
  unfold hbm_duplicate_mtags
  cases find_mtag mtags "time" with
  | none => exact hparse nowstr
  | some n => exact hparse n.value

/-- One `hbm_history_add_line` preserves the cached-aggregate invariant and
the all-nonzero-timestamp side condition (given a never-zero `parse`). -/
theorem add_line_preserves (parse : String → Int) (nowstr : String)
    (h : HistoryLogObject) (mtags : List MessageTag) (line : String)
    (hca : cacheOk h) (hts : ∀ l ∈ h.lines, l.t ≠ 0)
    (hparse : ∀ s, parse s ≠ 0) :
    cacheOk (hbm_history_add_line parse nowstr h mtags line)
    ∧ (∀ l ∈ (hbm_history_add_line parse nowstr h mtags line).lines, l.t ≠ 0) := by
  obtain ⟨hnum, hold⟩ := hca
  have htnz : (hbm_duplicate_mtags parse nowstr mtags).2 ≠ 0 :=
    duplicate_mtags_t_ne_zero parse nowstr mtags hparse
  constructor
  · constructor
    · simp [hbm_history_add_line, hnum]
    · simp only [hbm_history_add_line]
      by_cases hnil : h.lines = []
      · have hz : h.oldest_t = 0 := by rw [hold, hnil]; rfl
        rw [hz, hnil]
        simp [minTs]
      · have hmnz : minTs h.lines ≠ 0 := minTs_ne_zero h.lines hnil hts
        rw [minTs_append h.lines _ hnil]
        have hproj : ((⟨(hbm_duplicate_mtags parse nowstr mtags).2,
            (hbm_duplicate_mtags parse nowstr mtags).1, line⟩ : HistoryLogLine)).t
            = (hbm_duplicate_mtags parse nowstr mtags).2 := rfl
        rw [hproj, hold]
        by_cases hlt : (hbm_duplicate_mtags parse nowstr mtags).2 < minTs h.lines
        · rw [if_pos (Or.inl hlt), min_eq_right (le_of_lt hlt)]
        · have hcond : ¬ ((hbm_duplicate_mtags parse nowstr mtags).2 < minTs h.lines
              ∨ minTs h.lines = 0) := by
            push_neg; exact ⟨by omega, hmnz⟩
          rw [if_neg hcond, min_eq_left (by omega)]
  · intro l hl
    simp only [hbm_history_add_line, List.mem_append, List.mem_singleton] at hl
    rcases hl with hl | rfl
    · exact hts l hl
    · exact htnz

/-- A sequence of `AddLine` calls for one target: each element of the input
list is `(tags, text, formatted wall clock at that call)`. -/
def addLines (hash : String → Nat) (parse : String → Int) (object : String) :
    HistTable → List (List MessageTag × String × String) → HistTable
  | tbl, [] => tbl
  | tbl, inp :: rest =>
    addLines hash parse object
      (hbm_history_add hash parse inp.2.2 tbl object inp.1 inp.2.1) rest

/-- Invariant carried through a whole `addLines` sequence. -/
theorem addLines_invariant (hash : String → Nat) (parse : String → Int)
    (object : String) (hparse : ∀ s, parse s ≠ 0) :
    ∀ (inputs : List (List MessageTag × String × String)) (tbl : HistTable),
      (hbm_find_object hash tbl object = none
        ∨ ∃ h0, hbm_find_object hash tbl object = some h0 ∧ cacheOk h0
            ∧ ∀ l ∈ h0.lines, l.t ≠ 0) →
      ∀ h, hbm_find_object hash (addLines hash parse object tbl inputs) object
          = some h →
        cacheOk h ∧ ∀ l ∈ h.lines, l.t ≠ 0 := by
  intro inputs
  induction inputs with
  | nil =>
    intro tbl hstart h hfind
    rcases hstart with hnone | ⟨h0, hsome, hca, hts⟩
    · rw [addLines] at hfind
      rw [hnone] at hfind
      cases hfind
    · rw [addLines] at hfind
      rw [hsome] at hfind
      cases hfind
      exact ⟨hca, hts⟩
  | cons inp rest ih =>
    intro tbl hstart h hfind
    rw [addLines] at hfind
    refine ih (hbm_history_add hash parse inp.2.2 tbl object inp.1 inp.2.1)
      (Or.inr ?_) h hfind
    have hfa := find_after_add hash parse inp.2.2 tbl object inp.1 inp.2.1
    rcases hstart with hnone | ⟨h0, hsome, hca, hts⟩
    · rw [hnone] at hfa
      have hfresh : cacheOk (⟨object, [], 0, 0⟩ : HistoryLogObject) := by
        constructor <;> rfl
      have hpres := add_line_preserves parse inp.2.2 ⟨object, [], 0, 0⟩ inp.1 inp.2.1
        hfresh (by intro l hl; cases hl) hparse
      exact ⟨_, hfa, hpres.1, hpres.2⟩
    · rw [hsome] at hfa
      have hpres := add_line_preserves parse inp.2.2 h0 inp.1 inp.2.1 hca hts hparse
      exact ⟨_, hfa, hpres.1, hpres.2⟩

/-- C2 (amended): provided line timestamps are never the sentinel value 0
(`parse` never returns 0), after any sequence of `AddLine` calls on a single
fresh target the cached count equals the number of lines present, and the
cached oldest timestamp is the attained minimum of the present timestamps —
or the empty sentinel 0 when no lines are present. -/
theorem add_line_cache_invariant (hash : String → Nat) (parse : String → Int)
    (object : String) (tbl : HistTable)
    (inputs : List (List MessageTag × String × String)) (h : HistoryLogObject)
    (hparse : ∀ s, parse s ≠ 0)
    (hfresh : hbm_find_object hash tbl object = none)
    (hfind : hbm_find_object hash (addLines hash parse object tbl inputs) object
        = some h) :
    h.num_lines = (h.lines.length : Int)
    ∧ (h.lines = [] → h.oldest_t = 0)
    ∧ (h.lines ≠ [] →
        (∃ l ∈ h.lines, h.oldest_t = l.t) ∧ ∀ l ∈ h.lines, h.oldest_t ≤ l.t) := by
  have hinv := addLines_invariant hash parse object hparse inputs tbl
    (Or.inl hfresh) h hfind
  obtain ⟨⟨hnum, hold⟩, _⟩ := hinv
  refine ⟨hnum, ?_, ?_⟩
  · intro hnil
    rw [hold, hnil]
    rfl
  · intro hne
    constructor
    · rcases minTs_mem h.lines hne with ⟨l, hl, he⟩
      exact ⟨l, hl, by rw [hold, he]⟩
    · intro l hl
      rw [hold]
      exact minTs_le h.lines l hl

/-- Witness for C2: two insertions with explicit time tags parsing to 3 and 7;
the resulting cache is consistent. -/
theorem add_line_cache_invariant_witness :
    hbm_find_object (fun _ => 0)
        (addLines (fun _ => 0) (fun s => (s.length : Int) + 1) "#chat" emptyTable
          [([⟨"time", "xx"⟩], "m1", "w1"), ([⟨"time", "123456"⟩], "m2", "w2")])
        "#chat"
      = some ⟨"#chat", [⟨3, [⟨"time", "xx"⟩], "m1"⟩, ⟨7, [⟨"time", "123456"⟩], "m2"⟩], 2, 3⟩
    ∧ ((⟨"#chat", [⟨3, [⟨"time", "xx"⟩], "m1"⟩, ⟨7, [⟨"time", "123456"⟩], "m2"⟩], 2, 3⟩ :
          HistoryLogObject).num_lines
        = (((⟨"#chat", [⟨3, [⟨"time", "xx"⟩], "m1"⟩, ⟨7, [⟨"time", "123456"⟩], "m2"⟩], 2, 3⟩ :
          HistoryLogObject)).lines.length : Int))
    ∧ (∃ l ∈ (⟨"#chat", [⟨3, [⟨"time", "xx"⟩], "m1"⟩, ⟨7, [⟨"time", "123456"⟩], "m2"⟩], 2, 3⟩ :
          HistoryLogObject).lines,
        (⟨"#chat", [⟨3, [⟨"time", "xx"⟩], "m1"⟩, ⟨7, [⟨"time", "123456"⟩], "m2"⟩], 2, 3⟩ :
          HistoryLogObject).oldest_t = l.t) := by
  have hfind : hbm_find_object (fun _ => 0)
      (addLines (fun _ => 0) (fun s => (s.length : Int) + 1) "#chat" emptyTable
        [([⟨"time", "xx"⟩], "m1", "w1"), ([⟨"time", "123456"⟩], "m2", "w2")])
      "#chat"
      = some ⟨"#chat", [⟨3, [⟨"time", "xx"⟩], "m1"⟩, ⟨7, [⟨"time", "123456"⟩], "m2"⟩], 2, 3⟩ := by
    decide
  have h := add_line_cache_invariant (fun _ => 0) (fun s => (s.length : Int) + 1)
    "#chat" emptyTable
    [([⟨"time", "xx"⟩], "m1", "w1"), ([⟨"time", "123456"⟩], "m2", "w2")]
    ⟨"#chat", [⟨3, [⟨"time", "xx"⟩], "m1"⟩, ⟨7, [⟨"time", "123456"⟩], "m2"⟩], 2, 3⟩
    (by
      intro s
      show (s.length : Int) + 1 ≠ 0
      have h0 : (0:Int) ≤ (s.length : Int) := Int.natCast_nonneg _
      omega)
    (by decide) hfind
  exact ⟨hfind, h.1, (h.2.2 (by decide)).1⟩

/-- Counterexample to C2 as stated: the store uses `oldest_t = 0` both as the
empty sentinel and as a timestamp, so inserting a line whose timestamp is 0
and then one with timestamp 5 leaves `cached_oldest_time = 5` while the
minimum present timestamp is 0. -/
theorem add_line_cache_zero_sentinel_cex :
    hbm_find_object (fun _ => 0)
        (addLines (fun _ => 0) (fun s => (s.length : Int)) "#c" emptyTable
          [([⟨"time", ""⟩], "a", "w1"), ([⟨"time", "12345"⟩], "b", "w2")])
        "#c"
      = some ⟨"#c", [⟨0, [⟨"time", ""⟩], "a"⟩, ⟨5, [⟨"time", "12345"⟩], "b"⟩], 2, 5⟩
    ∧ minTs [⟨0, [⟨"time", ""⟩], "a"⟩, ⟨5, [⟨"time", "12345"⟩], "b"⟩] = 0
    ∧ (5 : Int) ≠ minTs [⟨0, [⟨"time", ""⟩], "a"⟩, ⟨5, [⟨"time", "12345"⟩], "b"⟩] := by
  refine ⟨by decide, by decide, by decide⟩

/-- Once the count constraint holds, the count sweep deletes nothing more and
just folds the timestamps into `oldest_t`. -/
theorem sweepCount_nodelete (ls : List HistoryLogLine) :
    ∀ (maxl num acc : Int), ¬ maxl < num →
      sweepCount maxl num acc ls = (ls, num, oldFold acc ls) := by
  induction ls with
  | nil => intro maxl num acc _; rfl
  | cons l ls ih =>
    intro maxl num acc hno
    simp only [sweepCount, if_neg hno, oldFold]
    rw [ih maxl num _ hno]

/-- The count sweep started at a correct running count deletes exactly the
excess `num - maxl` oldest lines from the head and folds the surviving
timestamps. -/
theorem sweepCount_spec (ls : List HistoryLogLine) :
    ∀ (maxl acc : Int), 0 ≤ maxl →
      sweepCount maxl (ls.length : Int) acc ls
        = (ls.drop ((ls.length : Int) - maxl).toNat,
           min (ls.length : Int) maxl,
           oldFold acc (ls.drop ((ls.length : Int) - maxl).toNat)) := by
  induction ls with
  | nil =>
    intro maxl acc hK
    have hd : ((([] : List HistoryLogLine).length : Int) - maxl).toNat = 0 := by
      simp; omega
    simp [sweepCount, hd, oldFold]
    omega
  | cons l ls ih =>
    intro maxl acc hK
    have hlen : (((l :: ls).length : Int)) = (ls.length : Int) + 1 := by
      push_cast [List.length_cons]; ring
    by_cases hcond : maxl < ((l :: ls).length : Int)
    · have hd : (((l :: ls).length : Int) - maxl).toNat
          = ((ls.length : Int) - maxl).toNat + 1 := by
        rw [hlen] at hcond ⊢
        omega
      have hnum : ((l :: ls).length : Int) - 1 = (ls.length : Int) := by
        rw [hlen]; ring
      simp only [sweepCount, if_pos hcond]
      rw [hnum, ih maxl acc hK, hd]
      have hmin : min ((l :: ls).length : Int) maxl = min (ls.length : Int) maxl := by
        rw [hlen] at hcond ⊢
        omega
      rw [hmin]
      rfl
    · have hd : (((l :: ls).length : Int) - maxl).toNat = 0 := by
        rw [hlen] at hcond ⊢
        omega
      have hmin : min ((l :: ls).length : Int) maxl = ((l :: ls).length : Int) := by
        omega
      rw [sweepCount_nodelete (l :: ls) maxl _ acc hcond, hd, hmin]
      rfl

/-- The age sweep deletes exactly the stale lines (`t < redline`), counts
them, and folds the surviving timestamps. -/
theorem sweepOld_spec (ls : List HistoryLogLine) :
    ∀ (redline acc : Int),
      sweepOld redline acc ls
        = (ls.filter (fun l => decide (redline ≤ l.t)),
           (ls.filter (fun l => decide (l.t < redline))).length,
           oldFold acc (ls.filter (fun l => decide (redline ≤ l.t)))) := by
  induction ls with
  | nil => intro redline acc; rfl
  | cons l ls ih =>
    intro redline acc
    by_cases hstale : l.t < redline
    · have hkeep : ¬ (redline ≤ l.t) := by omega
      simp only [sweepOld, if_pos hstale, List.filter_cons,
        decide_eq_true_eq]
      rw [ih redline acc]
      simp [hstale, hkeep]
    · have hkeep : redline ≤ l.t := by omega
      simp only [sweepOld, if_neg hstale, List.filter_cons,
        decide_eq_true_eq]
      rw [ih redline _]
      simp only [oldFold]
      simp [hstale, hkeep]
      rfl

/-- Splitting the length of a list by the staleness predicate. -/
theorem filter_stale_length (ls : List HistoryLogLine) (redline : Int) :
    (ls.filter (fun l => decide (redline ≤ l.t))).length
      + (ls.filter (fun l => decide (l.t < redline))).length = ls.length := by
  induction ls with
  | nil => rfl
  | cons l ls ih =>
    by_cases hstale : l.t < redline
    · have hkeep : ¬ (redline ≤ l.t) := by omega
      simp [List.filter_cons, hstale, hkeep]
      omega
    · have hkeep : redline ≤ l.t := by omega
      simp [List.filter_cons, hstale, hkeep]
      omega

theorem delTransform_name (now maxl maxt : Int) (h : HistoryLogObject) :
    (delTransform now maxl maxt h).name = h.name := by
  unfold delTransform
  by_cases h1c : h.oldest_t < now - maxt <;>
    simp only [h1c, if_true, if_false, ite_true, ite_false] <;>
    split <;> rfl

/-- On a found object, `hbm_history_del` returns 1 and a subsequent lookup of
the same target sees exactly the transformed object. -/
theorem del_found (hash : String → Nat) (now : Int) (tbl : HistTable)
    (object : String) (maxl maxt : Int) (h : HistoryLogObject)
    (hfind : hbm_find_object hash tbl object = some h) :
    (hbm_history_del hash now tbl object maxl maxt).1 = 1
    ∧ hbm_find_object hash (hbm_history_del hash now tbl object maxl maxt).2 object
        = some (delTransform now maxl maxt h) := by
  unfold hbm_history_del
  rw [hfind]
  refine ⟨rfl, ?_⟩
  have hn : nameEq object (delTransform now maxl maxt h).name = true := by
    rw [delTransform_name]
    exact findOb_name object (tbl (hash object)) h hfind
  have hrw := findOb_putBack object (tbl (hash object)) h
    (delTransform now maxl maxt h) hfind hn
  unfold hbm_find_object at hfind ⊢
  simpa using hrw

/-- Object-level effect of the count pass alone (age pass disabled by the
cached cheap check): the `num - K` oldest lines are dropped from the head and
the cache is recomputed over the survivors. -/
theorem delTransform_count_spec (now K maxt : Int) (h : HistoryLogObject)
    (hca : cacheOk h) (hts : ∀ l ∈ h.lines, l.t ≠ 0) (hK : 0 ≤ K)
    (hnoage : ¬ (h.oldest_t < now - maxt)) :
    (delTransform now K maxt h).lines
        = h.lines.drop (((h.lines.length : Int) - K).toNat)
    ∧ cacheOk (delTransform now K maxt h)
    ∧ ((delTransform now K maxt h).lines.length : Int)
        = min ((h.lines.length : Int)) K := by
  obtain ⟨hnum, hold⟩ := hca
  have htsd : ∀ l ∈ h.lines.drop (((h.lines.length : Int) - K).toNat), l.t ≠ 0 :=
    fun l hl => hts l (List.drop_subset _ h.lines hl)
  have hlend : ((h.lines.drop (((h.lines.length : Int) - K).toNat)).length : Int)
      = min ((h.lines.length : Int)) K := by
    rw [List.length_drop]
    omega
  simp only [delTransform, if_neg hnoage]
  by_cases hKlt : K < h.num_lines
  · rw [if_pos hKlt]
    rw [hnum] at hKlt ⊢
    rw [sweepCount_spec h.lines K 0 hK]
    refine ⟨rfl, ⟨?_, ?_⟩, ?_⟩
    · exact hlend.symm
    · show oldFold 0 (h.lines.drop (((h.lines.length : Int) - K).toNat)) = _
      exact oldFold_zero _ htsd
    · exact hlend
  · rw [if_neg hKlt]
    rw [hnum] at hKlt
    have hd : (((h.lines.length : Int)) - K).toNat = 0 := by omega
    have hmin : min ((h.lines.length : Int)) K = ((h.lines.length : Int)) := by omega
    rw [hd, hmin, List.drop_zero]
    exact ⟨rfl, ⟨hnum, hold⟩, rfl⟩

/-- Object-level effect of the age pass alone (count pass disabled by a large
`max_lines`): exactly the stale lines are removed, the cache is recomputed,
and nothing at all happens when the cached oldest timestamp is fresh. -/
theorem delTransform_age_spec (now maxl maxt : Int) (h : HistoryLogObject)
    (hca : cacheOk h) (hts : ∀ l ∈ h.lines, l.t ≠ 0)
    (hmax : (h.lines.length : Int) ≤ maxl) :
    (delTransform now maxl maxt h).lines
        = h.lines.filter (fun l => decide (now - maxt ≤ l.t))
    ∧ cacheOk (delTransform now maxl maxt h)
    ∧ (¬ (h.oldest_t < now - maxt) → delTransform now maxl maxt h = h) := by
  obtain ⟨hnum, hold⟩ := hca
  by_cases hage : h.oldest_t < now - maxt
  · have htsf : ∀ l ∈ h.lines.filter (fun l => decide (now - maxt ≤ l.t)), l.t ≠ 0 :=
      fun l hl => hts l (List.mem_of_mem_filter hl)
    have hsplit := filter_stale_length h.lines (now - maxt)
    simp only [delTransform, if_pos hage]
    rw [sweepOld_spec h.lines (now - maxt) 0]
    have hnum2 : h.num_lines
        - (((h.lines.filter (fun l => decide (l.t < now - maxt))).length : Int))
        = ((h.lines.filter (fun l => decide (now - maxt ≤ l.t))).length : Int) := by
      rw [hnum]
      omega
    have hskip : ¬ (maxl
        < h.num_lines
          - (((h.lines.filter (fun l => decide (l.t < now - maxt))).length : Int))) := by
      rw [hnum2]
      have hle := List.length_filter_le (fun l => decide (now - maxt ≤ l.t)) h.lines
      omega
    rw [if_neg hskip]
    refine ⟨rfl, ⟨hnum2, ?_⟩, fun hcon => absurd hage hcon⟩
    show oldFold 0 (h.lines.filter (fun l => decide (now - maxt ≤ l.t))) = _
    exact oldFold_zero _ htsf
  · have hfe : h.lines.filter (fun l => decide (now - maxt ≤ l.t)) = h.lines := by
      apply List.filter_eq_self.mpr
      intro l hl
      apply decide_eq_true
      have := minTs_le h.lines l hl
      rw [hold] at hage
      omega
    have hskip : ¬ (maxl < h.num_lines) := by rw [hnum]; omega
    simp only [delTransform, if_neg hage, if_neg hskip]
    exact ⟨hfe.symm, ⟨hnum, hold⟩, fun _ => trivial⟩

/-- C3: with the age pass disabled (`max_age = ∞`, i.e. the cached oldest
timestamp is not older than `now - max_time`), `EnforceRetention` on a target
holding `C` lines (with a consistent cache, nonzero timestamps, and lines in
chronological order) leaves exactly `min(C, K)` lines — the `K` most recent,
evicting from the oldest end — and afterwards the cached count and cached
oldest timestamp reflect the survivors. -/
theorem retention_count_keeps_recent (hash : String → Nat) (now : Int)
    (tbl : HistTable) (object : String) (K maxt : Int) (h : HistoryLogObject)
    (hfind : hbm_find_object hash tbl object = some h)
    (hca : cacheOk h) (hts : ∀ l ∈ h.lines, l.t ≠ 0)
    (hsorted : h.lines.Pairwise (fun a b => a.t ≤ b.t)) (hK : 0 ≤ K)
    (hnoage : ¬ (h.oldest_t < now - maxt)) :
    (hbm_history_del hash now tbl object K maxt).1 = 1
    ∧ ∃ h2, hbm_find_object hash (hbm_history_del hash now tbl object K maxt).2
          object = some h2
        ∧ h2.lines = h.lines.drop (((h.lines.length : Int) - K).toNat)
        ∧ (h2.lines.length : Int) = min ((h.lines.length : Int)) K
        ∧ cacheOk h2
        ∧ ∀ a ∈ h.lines.take (((h.lines.length : Int) - K).toNat),
            ∀ b ∈ h2.lines, a.t ≤ b.t := by
  have hdf := del_found hash now tbl object K maxt h hfind
  have hobj := delTransform_count_spec now K maxt h hca hts hK hnoage
  have hsorted2 := hsorted
  rw [← List.take_append_drop (((h.lines.length : Int) - K).toNat) h.lines]
    at hsorted2
  have hcross := (List.pairwise_append.mp hsorted2).2.2
  refine ⟨hdf.1, delTransform now K maxt h, hdf.2, hobj.1, hobj.2.2, hobj.2.1, ?_⟩
  intro a ha b hb
  rw [hobj.1] at hb
  exact hcross a ha b hb

/-- Witness for C3, the claim's concrete scenario: lines at t = 100, 200, 300
in `"#chat"`, `max_lines = 2`: exactly t = 200 and t = 300 survive with
`cached_count = 2` and `cached_oldest_time = 200`. -/
theorem retention_count_keeps_recent_witness :
    ((hbm_history_del (fun _ => 0) 1000 (fun _ =>
        [⟨"#chat", [⟨100, [], "m1"⟩, ⟨200, [], "m2"⟩, ⟨300, [], "m3"⟩], 3, 100⟩])
        "#chat" 2 100000).1 = 1
      ∧ ∃ h2, hbm_find_object (fun _ => 0)
            (hbm_history_del (fun _ => 0) 1000 (fun _ =>
              [⟨"#chat", [⟨100, [], "m1"⟩, ⟨200, [], "m2"⟩, ⟨300, [], "m3"⟩], 3, 100⟩])
              "#chat" 2 100000).2 "#chat" = some h2
          ∧ h2.lines = [⟨200, [], "m2"⟩, ⟨300, [], "m3"⟩]
          ∧ (h2.lines.length : Int) = 2
          ∧ cacheOk h2)
    ∧ hbm_find_object (fun _ => 0)
        (hbm_history_del (fun _ => 0) 1000 (fun _ =>
          [⟨"#chat", [⟨100, [], "m1"⟩, ⟨200, [], "m2"⟩, ⟨300, [], "m3"⟩], 3, 100⟩])
          "#chat" 2 100000).2 "#chat"
        = some ⟨"#chat", [⟨200, [], "m2"⟩, ⟨300, [], "m3"⟩], 2, 200⟩ := by
  have h := retention_count_keeps_recent (fun _ => 0) 1000 (fun _ =>
      [⟨"#chat", [⟨100, [], "m1"⟩, ⟨200, [], "m2"⟩, ⟨300, [], "m3"⟩], 3, 100⟩])
      "#chat" 2 100000
      ⟨"#chat", [⟨100, [], "m1"⟩, ⟨200, [], "m2"⟩, ⟨300, [], "m3"⟩], 3, 100⟩
      (by decide) (by constructor <;> decide) (by decide) (by decide)
      (by decide) (by decide)
  obtain ⟨h1, h2, hfind2, hlines, hlen, hcache, _⟩ := h
  refine ⟨⟨h1, h2, hfind2, by rw [hlines]; decide, by rw [hlen]; decide, hcache⟩, ?_⟩
  decide

/-- C4: with the count pass disabled (`max_lines` at least the current line
count), `EnforceRetention` removes exactly the lines older than
`now - max_age` and no others (given a consistent cache and nonzero
timestamps), recomputing the cached fields over the survivors in the same
pass; and the age sweep runs only when the cached oldest timestamp is older
than the cutoff — otherwise the object is untouched. -/
theorem retention_age_exact (hash : String → Nat) (now : Int) (tbl : HistTable)
    (object : String) (maxl maxt : Int) (h : HistoryLogObject)
    (hfind : hbm_find_object hash tbl object = some h)
    (hca : cacheOk h) (hts : ∀ l ∈ h.lines, l.t ≠ 0)
    (hmax : (h.lines.length : Int) ≤ maxl) :
    (hbm_history_del hash now tbl object maxl maxt).1 = 1
    ∧ ∃ h2, hbm_find_object hash (hbm_history_del hash now tbl object maxl maxt).2
          object = some h2
        ∧ h2.lines = h.lines.filter (fun l => decide (now - maxt ≤ l.t))
        ∧ cacheOk h2
        ∧ (¬ (h.oldest_t < now - maxt) → h2 = h) := by
  have hdf := del_found hash now tbl object maxl maxt h hfind
  have hobj := delTransform_age_spec now maxl maxt h hca hts hmax
  exact ⟨hdf.1, delTransform now maxl maxt h, hdf.2, hobj.1, hobj.2.1, hobj.2.2⟩

/-- Witness for C4: lines at t = 10, 50, 200, `now = 300`, `max_age = 100`
(cutoff 200): exactly the lines at t = 10 and t = 50 are removed and the cache
is recomputed to count 1, oldest 200. -/
theorem retention_age_exact_witness :
    ((hbm_history_del (fun _ => 0) 300 (fun _ =>
        [⟨"#c", [⟨10, [], "a"⟩, ⟨50, [], "b"⟩, ⟨200, [], "c"⟩], 3, 10⟩])
        "#c" 1000 100).1 = 1
      ∧ ∃ h2, hbm_find_object (fun _ => 0)
            (hbm_history_del (fun _ => 0) 300 (fun _ =>
              [⟨"#c", [⟨10, [], "a"⟩, ⟨50, [], "b"⟩, ⟨200, [], "c"⟩], 3, 10⟩])
              "#c" 1000 100).2 "#c" = some h2
          ∧ h2.lines = [⟨200, [], "c"⟩]
          ∧ cacheOk h2)
    ∧ hbm_find_object (fun _ => 0)
        (hbm_history_del (fun _ => 0) 300 (fun _ =>
          [⟨"#c", [⟨10, [], "a"⟩, ⟨50, [], "b"⟩, ⟨200, [], "c"⟩], 3, 10⟩])
          "#c" 1000 100).2 "#c"
        = some ⟨"#c", [⟨200, [], "c"⟩], 1, 200⟩ := by
  have h := retention_age_exact (fun _ => 0) 300 (fun _ =>
      [⟨"#c", [⟨10, [], "a"⟩, ⟨50, [], "b"⟩, ⟨200, [], "c"⟩], 3, 10⟩])
      "#c" 1000 100
      ⟨"#c", [⟨10, [], "a"⟩, ⟨50, [], "b"⟩, ⟨200, [], "c"⟩], 3, 10⟩
      (by decide) (by constructor <;> decide) (by decide) (by decide)
  obtain ⟨h1, h2, hfind2, hlines, hcache, _⟩ := h
  refine ⟨⟨h1, h2, hfind2, by rw [hlines]; decide, hcache⟩, ?_⟩
  decide

/-- Number of payload lines in a replay transcript. -/
def countPayload (ms : List OutMsg) : Nat :=
  ms.countP (fun m => match m with | .payload _ _ => true | _ => false)

/-- Modelled from the spec: the payload count C5 prescribes — "N = number of
stored lines matching the filter", the filter "applied before emission" being
an external predicate over `(timestamp, text)`.  This follows the spec's
words, for comparison with the source's behaviour. -/
def spec_matching_count (filt : HistoryFilter) (ls : List HistoryLogLine) : Nat :=
  (ls.filter (fun l => filt l.t l.line)).length

theorem countPayload_payloads (f : HistoryLogLine → List MessageTag) :
    ∀ ls : List HistoryLogLine,
      countPayload (ls.map (fun l => OutMsg.payload (f l) l.line)) = ls.length := by
  intro ls
  induction ls with
  | nil => rfl
  | cons l ls ih =>
    simp only [List.map_cons, countPayload, List.countP_cons] at ih ⊢
    simp [ih]

/-- The emission loop over a capable client with an open batch annotates every
stored line with the batch tag. -/
theorem sendAll_batched (c : Client) (batch : String)
    (hst : can_receive_history c = true) (hb : batch ≠ "") :
    ∀ ls : List HistoryLogLine,
      sendAll c batch ls
        = ls.map (fun l => OutMsg.payload (⟨"batch", batch⟩ :: l.mtags) l.line) := by
  intro ls
  induction ls with
  | nil => rfl
  | cons l ls ih =>
    simp only [sendAll, hbm_send_line, hst, if_true, if_neg hb, ih]
    rfl

/-- C5 (amended): for a stored target and a recipient with both the
`server-time` and `batch` capabilities, `Replay` emits exactly one open-batch
control line, then one payload line per *stored* line in oldest-to-newest
order — the `filter` argument is ignored by this backend — then exactly one
close-batch control line. -/
theorem replay_batch_structure (hash : String → Nat) (genBatch : String)
    (tbl : HistTable) (c : Client) (object : String) (filt : HistoryFilter)
    (h : HistoryLogObject)
    (hfind : hbm_find_object hash tbl object = some h)
    (hst : can_receive_history c = true)
    (hb : HasCapability c "batch" = true)
    (hg : genBatch ≠ "") :
    hbm_history_request hash genBatch tbl c object filt
      = (1, OutMsg.openBatch genBatch object ::
          (h.lines.map (fun l => OutMsg.payload (⟨"batch", genBatch⟩ :: l.mtags) l.line)
           ++ [OutMsg.closeBatch genBatch]))
    ∧ countPayload (hbm_history_request hash genBatch tbl c object filt).2
        = h.lines.length := by
  have hmain : hbm_history_request hash genBatch tbl c object filt
      = (1, OutMsg.openBatch genBatch object ::
          (h.lines.map (fun l => OutMsg.payload (⟨"batch", genBatch⟩ :: l.mtags) l.line)
           ++ [OutMsg.closeBatch genBatch])) := by
    simp only [hbm_history_request, hfind, hst, hb, if_true, ite_true]
    rw [if_neg hg, sendAll_batched c genBatch hst hg h.lines]
    simp
  refine ⟨hmain, ?_⟩
  rw [hmain]
  simp only [countPayload, List.countP_cons, List.countP_append]
  have := countPayload_payloads (fun l => (⟨"batch", genBatch⟩ : MessageTag) :: l.mtags)
    h.lines
  simp only [countPayload] at this
  simp [this]

/-- Witness for C5: two stored lines, a fully capable recipient, an arbitrary
filter — the transcript is open, two payloads in order, close. -/
theorem replay_batch_structure_witness :
    hbm_history_request (fun _ => 0) "B"
        (fun _ => [⟨"#c", [⟨5, [], "one"⟩, ⟨9, [], "two"⟩], 2, 5⟩])
        ⟨["server-time", "batch"]⟩ "#c" (fun _ _ => true)
      = (1, [OutMsg.openBatch "B" "#c",
             OutMsg.payload [⟨"batch", "B"⟩] "one",
             OutMsg.payload [⟨"batch", "B"⟩] "two",
             OutMsg.closeBatch "B"])
    ∧ countPayload (hbm_history_request (fun _ => 0) "B"
        (fun _ => [⟨"#c", [⟨5, [], "one"⟩, ⟨9, [], "two"⟩], 2, 5⟩])
        ⟨["server-time", "batch"]⟩ "#c" (fun _ _ => true)).2 = 2 := by
  have h := replay_batch_structure (fun _ => 0) "B"
    (fun _ => [⟨"#c", [⟨5, [], "one"⟩, ⟨9, [], "two"⟩], 2, 5⟩])
    ⟨["server-time", "batch"]⟩ "#c" (fun _ _ => true)
    ⟨"#c", [⟨5, [], "one"⟩, ⟨9, [], "two"⟩], 2, 5⟩
    (by decide) (by decide) (by decide) (by decide)
  exact ⟨by rw [h.1]; decide, by rw [h.2]; decide⟩

/-- Counterexample to C5 as stated: the backend ignores the filter.  With one
stored line and a filter matching nothing, the claim prescribes 0 payload
lines but the code emits 1. -/
theorem replay_ignores_filter_cex :
    countPayload (hbm_history_request (fun _ => 0) "B"
        (fun _ => [⟨"#c", [⟨5, [], "hello"⟩], 1, 5⟩])
        ⟨["server-time", "batch"]⟩ "#c" (fun _ _ => false)).2 = 1
    ∧ spec_matching_count (fun _ _ => false) [⟨5, [], "hello"⟩] = 0
    ∧ countPayload (hbm_history_request (fun _ => 0) "B"
        (fun _ => [⟨"#c", [⟨5, [], "hello"⟩], 1, 5⟩])
        ⟨["server-time", "batch"]⟩ "#c" (fun _ _ => false)).2
      ≠ spec_matching_count (fun _ _ => false) [⟨5, [], "hello"⟩] := by
  refine ⟨by decide, by decide, by decide⟩

/-- C9: after `Destroy(target)` no trace of the target survives — the lookup
misses (no hash-index entry, hence no lines, no cached count, no cached
oldest) — and a subsequent `AddLine` produces exactly the log object that
`AddLine` produces for a never-before-seen target: one line, count 1, oldest
the new line's timestamp. -/
theorem destroy_then_add_fresh (hash : String → Nat) (parse : String → Int)
    (nowstr : String) (tbl : HistTable) (object : String)
    (mtags : List MessageTag) (line : String)
    (huniq : (tbl (hash object)).countP (fun x => nameEq object x.name) ≤ 1) :
    hbm_find_object hash (hbm_history_destroy hash tbl object).2 object = none
    ∧ hbm_find_object hash
        (hbm_history_add hash parse nowstr (hbm_history_destroy hash tbl object).2
          object mtags line) object
        = some (hbm_history_add_line parse nowstr ⟨object, [], 0, 0⟩ mtags line)
    ∧ hbm_find_object hash
        (hbm_history_add hash parse nowstr emptyTable object mtags line) object
        = some (hbm_history_add_line parse nowstr ⟨object, [], 0, 0⟩ mtags line) := by
  have hgone : hbm_find_object hash (hbm_history_destroy hash tbl object).2 object
      = none := by
    cases hfd : hbm_find_object hash tbl object with
    | none =>
      simp only [hbm_history_destroy, hfd]
    | some h =>
      simp only [hbm_history_destroy, hfd]
      simp only [hbm_find_object]
      have hrw := findOb_delOb_none object (tbl (hash object)) huniq
      simpa using hrw
  refine ⟨hgone, ?_, ?_⟩
  · have hfa := find_after_add hash parse nowstr
      (hbm_history_destroy hash tbl object).2 object mtags line
    rw [hgone] at hfa
    exact hfa
  · have hfa := find_after_add hash parse nowstr emptyTable object mtags line
    have hempty : hbm_find_object hash emptyTable object = none := rfl
    rw [hempty] at hfa
    exact hfa

/-- Witness for C9: destroying `"#a"` (stored under the case-variant `"#A"`
with a stale-looking cache) then inserting produces exactly the
fresh-object state, identical to inserting into an empty store. -/
theorem destroy_then_add_fresh_witness :
    hbm_find_object (fun _ => 0)
        (hbm_history_destroy (fun _ => 0)
          (fun _ => [⟨"#A", [⟨42, [], "old"⟩], 1, 42⟩]) "#a").2 "#a" = none
    ∧ hbm_find_object (fun _ => 0)
        (hbm_history_add (fun _ => 0) (fun s => (s.length : Int) + 1) "now!"
          (hbm_history_destroy (fun _ => 0)
            (fun _ => [⟨"#A", [⟨42, [], "old"⟩], 1, 42⟩]) "#a").2
          "#a" [] "fresh") "#a"
        = some ⟨"#a", [⟨5, [⟨"time", "now!"⟩], "fresh"⟩], 1, 5⟩
    ∧ hbm_find_object (fun _ => 0)
        (hbm_history_add (fun _ => 0) (fun s => (s.length : Int) + 1) "now!"
          emptyTable "#a" [] "fresh") "#a"
        = some ⟨"#a", [⟨5, [⟨"time", "now!"⟩], "fresh"⟩], 1, 5⟩ := by
  have h := destroy_then_add_fresh (fun _ => 0) (fun s => (s.length : Int) + 1)
    "now!" (fun _ => [⟨"#A", [⟨42, [], "old"⟩], 1, 42⟩]) "#a" [] "fresh"
    (by decide)
  refine ⟨h.1, ?_, ?_⟩
  · rw [h.2.1]
    decide
  · rw [h.2.2]
    decide

end Hist
